import Mathlib

/-!
Shallow embedding of `arsenal/maths/rvs.py` (truncated distributions,
empirical CDFs, inverse-CDF discrete sampling) over exact rationals,
together with proofs of the spec's claims about it.

Numbers are modelled by `ℚ` (exact arithmetic; the spec's tolerance claims
are settled by proving the exact identities that imply them).  NumPy's
`searchsorted` is modelled by its documented insertion-point semantics on
sorted arrays; `np.inf` sentinels are modelled by `Option.none`.
-/

namespace Arsenal

/-- `np.searchsorted(c, v, side='left')`: the insertion index that keeps the
array sorted with `v` placed before any equal elements; for a sorted array
this is the number of elements strictly below `v`. -/
def searchsorted_left (c : List ℚ) (v : ℚ) : ℕ :=
  c.countP (fun x => decide (x < v))

/-- `np.searchsorted(c, v, side='right')`: the insertion index that keeps the
array sorted with `v` placed after any equal elements; for a sorted array
this is the number of elements at or below `v`. -/
def searchsorted_right (c : List ℚ) (v : ℚ) : ℕ :=
  c.countP (fun x => decide (x ≤ v))

/-- `np.cumsum` with an explicit running accumulator. -/
def cumsumFrom (acc : ℚ) : List ℚ → List ℚ
  | [] => []
  | x :: xs => (acc + x) :: cumsumFrom (acc + x) xs

/-- `np.cumsum(w)`: length-preserving prefix sums. -/
def cumsum (w : List ℚ) : List ℚ := cumsumFrom 0 w

/-- Rational indicator of a decidable proposition, modelling numpy's
implicit bool-to-number coercion in expressions like `(a <= x) * e`. -/
def indQ (p : Prop) [Decidable p] : ℚ := if p then 1 else 0

/-- The capability contract a base distribution exposes to
`TruncatedDistribution`: `pdf`, `cdf` and `ppf`. -/
structure BaseDist where
  pdf : ℚ → ℚ
  cdf : ℚ → ℚ
  ppf : ℚ → ℚ

/-- `TruncatedDistribution(d, a, b)`: the wrapped distribution and bounds.
The constructor's `assert np.all(a <= b)` appears as the hypothesis
`t.a ≤ t.b` in theorems about constructed objects. -/
structure TruncatedDistribution where
  d : BaseDist
  a : ℚ
  b : ℚ

/-- Cached `self.cdf_b = d.cdf(b)`. -/
def TruncatedDistribution.cdf_b (t : TruncatedDistribution) : ℚ := t.d.cdf t.b

/-- Cached `self.cdf_a = d.cdf(a)`. -/
def TruncatedDistribution.cdf_a (t : TruncatedDistribution) : ℚ := t.d.cdf t.a

/-- Cached `self.cdf_w = self.cdf_b - self.cdf_a`. -/
def TruncatedDistribution.cdf_w (t : TruncatedDistribution) : ℚ :=
  t.cdf_b - t.cdf_a

/-- `TruncatedDistribution.pdf`:
`(self.a <= x) * (x <= self.b) * self.d.pdf(x) / self.cdf_w`. -/
def TruncatedDistribution.pdf (t : TruncatedDistribution) (x : ℚ) : ℚ :=
  indQ (t.a ≤ x) * indQ (x ≤ t.b) * t.d.pdf x / t.cdf_w

/-- `TruncatedDistribution.cdf`:
`np.minimum(1, (self.a <= x) * (self.d.cdf(x) - self.cdf_a) / self.cdf_w)`. -/
def TruncatedDistribution.cdf (t : TruncatedDistribution) (x : ℚ) : ℚ :=
  min 1 (indQ (t.a ≤ x) * (t.d.cdf x - t.cdf_a) / t.cdf_w)

/-- `TruncatedDistribution.sf`: `1 - self.cdf(x)`. -/
def TruncatedDistribution.sf (t : TruncatedDistribution) (x : ℚ) : ℚ :=
  1 - t.cdf x

/-- `TruncatedDistribution.ppf`: `self.d.ppf(self.cdf_a + u * self.cdf_w)`. -/
def TruncatedDistribution.ppf (t : TruncatedDistribution) (u : ℚ) : ℚ :=
  t.d.ppf (t.cdf_a + u * t.cdf_w)

/-- The ascending sort performed by `Empirical.__init__`
(`self.x = np.array(x, copy=True); self.x.sort()`). -/
def sortedx (xs : List ℚ) : List ℚ := xs.insertionSort (· ≤ ·)

/-- `Empirical.__call__` (aka `cdf`):
`self.x.searchsorted(z, 'right') / self.n`, where `self.x` is the sorted
copy of the data and `self.n` its length. -/
def ecdf (xs : List ℚ) (z : ℚ) : ℚ :=
  (searchsorted_right (sortedx xs) z : ℚ) / (xs.length : ℚ)

/-- `Empirical.conditional_mean(a, b)`: sums `self.x[i]` for `i` in
`range(self.x.searchsorted(a, 'right'), self.x.searchsorted(b, 'left'))`
and divides by the count; `np.inf` (returned when the range is empty) is
modelled as `none`. -/
def conditional_mean (xs : List ℚ) (a b : ℚ) : Option ℚ :=
  let s := sortedx xs
  let lo := searchsorted_right s a
  let hi := searchsorted_left s b
  let seg := (s.drop lo).take (hi - lo)
  if seg.length > 0 then some (seg.sum / (seg.length : ℚ)) else none

/-- `Empirical.quantile(q)` = `np.quantile(self.x, q, interpolation='lower')`:
the sorted sample at index `floor(q * (n - 1))` (numpy's documented
"lower" interpolation).  The `assert np.all((0 <= q) & (q <= 1))` appears
as hypotheses in theorems. -/
def quantile (xs : List ℚ) (q : ℚ) : ℚ :=
  (sortedx xs).getD (Nat.floor (q * ((xs.length : ℚ) - 1))) 0

/-- Construction of `Empirical(x)` as a heap transformer, to model the
aliasing behaviour of `np.array(x, copy=True)` followed by the in-place
`self.x.sort()`.  The heap is a list of array buffers addressed by index;
construction allocates a fresh buffer holding a copy of the caller's data
and sorts that fresh buffer in place, returning the new heap and the
address of the object's buffer. -/
def empInit (heap : List (List ℚ)) (caller : ℕ) : List (List ℚ) × ℕ :=
  let copyAddr := heap.length
  let h1 := heap ++ [heap.getD caller []]
  let h2 := h1.set copyAddr (sortedx (h1.getD copyAddr []))
  (h2, copyAddr)

/-- The deterministic core of `sample(w, u)` for a single uniform draw `u`:
`c = cumsum(w); return c.searchsorted(u * c[-1])` (default side `'left'`). -/
def sampleIdx (w : List ℚ) (u : ℚ) : ℕ :=
  let c := cumsum w
  searchsorted_left c (u * c.getLastD 0)

/-- The full call protocol of `sample(w, size=None, u=None)`, including its
assertion: when `u is None` the code runs `assert size is None` and then
draws a single scalar uniform (modelled by the explicit `udraw` argument);
when `u` is supplied, `size` is ignored entirely.  An `AssertionError` is
modelled as `Except.error`. -/
def sampleCall (w : List ℚ) (size : Option ℕ) (u : Option ℚ) (udraw : ℚ) :
    Except String ℕ :=
  match u with
  | some uv => Except.ok (sampleIdx w uv)
  | none =>
    if size = none then Except.ok (sampleIdx w udraw)
    else Except.error "assert size is None"

/-- `w.max()` for a nonempty array. -/
def listMax (l : List ℚ) : ℚ := l.foldl max (l.headD 0)

/-- `log_sample(w)`: `a = w - w.max(); exp(a, out=a); return sample(a)`,
for a fixed uniform draw `u`.  `np.exp` is modelled by an abstract map
`E : ℚ → ℚ`; theorems assume of `E` exactly the laws of the real
exponential that the stabilisation relies on (strict positivity and
`E (x + y) = E x * E y`). -/
def logSample (E : ℚ → ℚ) (lw : List ℚ) (u : ℚ) : ℕ :=
  sampleIdx ((lw.map (fun x => x - listMax lw)).map E) u

/-- A concrete base distribution (the uniform law on `[0,1]`, with `cdf` and
`ppf` the identity on that interval) used to instantiate general theorems. -/
def unifD : BaseDist where
  pdf := fun _ => 1
  cdf := fun x => x
  ppf := fun u => u

/-- The truncation of `unifD` to `[0, 1]`. -/
def unifT : TruncatedDistribution where
  d := unifD
  a := 0
  b := 1

/- ------------------------------------------------------------------ -/
/- Helper lemmas.                                                      -/
/- ------------------------------------------------------------------ -/

theorem sortedx_sorted (xs : List ℚ) : (sortedx xs).Sorted (· ≤ ·) :=
  List.sorted_insertionSort _ xs

theorem sortedx_perm (xs : List ℚ) : (sortedx xs).Perm xs :=
  List.perm_insertionSort _ xs

theorem sortedx_length (xs : List ℚ) : (sortedx xs).length = xs.length :=
  List.length_insertionSort _ xs

theorem sortedx_countP (xs : List ℚ) (p : ℚ → Bool) :
    (sortedx xs).countP p = xs.countP p :=
  List.Perm.countP_eq p (sortedx_perm xs)

theorem getD_mem_of_lt {l : List ℚ} {n : ℕ} (h : n < l.length) (d : ℚ) :
    l.getD n d ∈ l := by
  rw [List.getD_eq_getElem l d h]
  exact List.getElem_mem h

theorem sorted_getD_zero_le {s : List ℚ} (hs : s.Sorted (· ≤ ·)) {v : ℚ}
    (hv : v ∈ s) : s.getD 0 0 ≤ v := by
  cases s with
  | nil => cases hv
  | cons x xs =>
    rcases List.mem_cons.1 hv with h | h
    · exact h ▸ le_rfl
    · exact (List.sorted_cons.1 hs).1 v h

theorem sorted_le_getD_last {s : List ℚ} (hs : s.Sorted (· ≤ ·)) {v : ℚ}
    (hv : v ∈ s) : v ≤ s.getD (s.length - 1) 0 := by
  induction s with
  | nil => cases hv
  | cons x xs ih =>
    rcases List.sorted_cons.1 hs with ⟨hx, hxs⟩
    cases xs with
    | nil =>
      rcases List.mem_cons.1 hv with h | h
      · simp [h]
      · cases h
    | cons y ys =>
      have hlen : (x :: y :: ys).length - 1 = ((y :: ys).length - 1) + 1 := by
        simp
      rw [hlen, List.getD_cons_succ]
      rcases List.mem_cons.1 hv with h | h
      · have hmem : (y :: ys).getD ((y :: ys).length - 1) 0 ∈ y :: ys := by
          apply getD_mem_of_lt
          simp
        exact h ▸ (hx _ hmem)
      · exact ih hxs h

theorem getLastD_mem {l : List ℚ} (hl : l ≠ []) (d : ℚ) : l.getLastD d ∈ l := by
  induction l generalizing d with
  | nil => cases hl rfl
  | cons x xs ih =>
    rw [List.getLastD_cons]
    cases xs with
    | nil => simp [List.getLastD]
    | cons y ys => exact List.mem_cons_of_mem x (ih (by simp) x)

theorem cumsumFrom_length (acc : ℚ) (w : List ℚ) :
    (cumsumFrom acc w).length = w.length := by
  induction w generalizing acc with
  | nil => rfl
  | cons x xs ih => simp [cumsumFrom, ih]

theorem cumsum_length (w : List ℚ) : (cumsum w).length = w.length :=
  cumsumFrom_length 0 w

theorem cumsumFrom_getLastD (acc : ℚ) (w : List ℚ) :
    (cumsumFrom acc w).getLastD acc = acc + w.sum := by
  induction w generalizing acc with
  | nil => simp [cumsumFrom]
  | cons x xs ih =>
    rw [cumsumFrom, List.getLastD_cons, ih (acc + x), List.sum_cons]
    ring

theorem cumsum_getLastD (w : List ℚ) : (cumsum w).getLastD 0 = w.sum := by
  have h := cumsumFrom_getLastD 0 w
  rw [zero_add] at h
  exact h

theorem cumsumFrom_sorted (acc : ℚ) (w : List ℚ) (hnn : ∀ x ∈ w, 0 ≤ x) :
    (cumsumFrom acc w).Sorted (· ≤ ·) ∧ ∀ y ∈ cumsumFrom acc w, acc ≤ y := by
  induction w generalizing acc with
  | nil => exact ⟨List.sorted_nil, by simp [cumsumFrom]⟩
  | cons x xs ih =>
    have hx : 0 ≤ x := hnn x (List.mem_cons_self x xs)
    have hxs : ∀ z ∈ xs, 0 ≤ z := fun z hz => hnn z (List.mem_cons_of_mem x hz)
    rcases ih (acc + x) hxs with ⟨hsort, hge⟩
    constructor
    · rw [cumsumFrom, List.sorted_cons]
      exact ⟨fun b hb => hge b hb, hsort⟩
    · intro y hy
      rw [cumsumFrom, List.mem_cons] at hy
      rcases hy with h | h
      · rw [h]; linarith
      · have := hge y h; linarith

theorem searchsorted_left_spec (c : List ℚ) (t : ℚ) (hs : c.Sorted (· ≤ ·)) :
    (∀ j < searchsorted_left c t, c.getD j 0 < t) ∧
    (searchsorted_left c t < c.length →
      t ≤ c.getD (searchsorted_left c t) 0) := by
  induction c with
  | nil =>
    constructor
    · intro j hj
      exact absurd hj (by simp [searchsorted_left])
    · intro h
      exact absurd h (by simp [searchsorted_left])
  | cons x xs ih =>
    rcases List.sorted_cons.1 hs with ⟨hx, hxs⟩
    rcases ih hxs with ⟨ih1, ih2⟩
    by_cases hxt : x < t
    · have hcount : searchsorted_left (x :: xs) t = searchsorted_left xs t + 1 := by
        rw [searchsorted_left, searchsorted_left, List.countP_cons,
          if_pos (by simpa using hxt)]
      constructor
      · intro j hj
        rw [hcount] at hj
        cases j with
        | zero => simpa using hxt
        | succ k =>
          rw [List.getD_cons_succ]
          exact ih1 k (Nat.lt_of_succ_lt_succ hj)
      · intro hlen
        rw [hcount] at hlen ⊢
        rw [List.getD_cons_succ]
        exact ih2 (by simpa using Nat.lt_of_succ_lt_succ hlen)
    · have ht : t ≤ x := not_lt.1 hxt
      have htail : xs.countP (fun y => decide (y < t)) = 0 :=
        List.countP_eq_zero.2
          (fun a ha => by simpa using not_lt.2 (le_trans ht (hx a ha)))
      have hzero : searchsorted_left (x :: xs) t = 0 := by
        rw [searchsorted_left, List.countP_cons, if_neg (by simpa using hxt),
          add_zero]
        exact htail
      constructor
      · intro j hj
        rw [hzero] at hj
        exact absurd hj (Nat.not_lt_zero j)
      · intro _
        rw [hzero, List.getD_cons_zero]
        exact ht

theorem cumsumFrom_map_mul (w : List ℚ) (k : ℚ) :
    ∀ a : ℚ, cumsumFrom (a * k) (w.map (fun x => x * k))
      = (cumsumFrom a w).map (fun x => x * k) := by
  induction w with
  | nil => intro a; rfl
  | cons x xs ih =>
    intro a
    simp only [List.map_cons, cumsumFrom]
    rw [← add_mul, ih (a + x)]

theorem cumsum_map_mul (w : List ℚ) (k : ℚ) :
    cumsum (w.map (fun x => x * k)) = (cumsum w).map (fun x => x * k) := by
  have h := cumsumFrom_map_mul w k 0
  rw [zero_mul] at h
  exact h

theorem getLastD_map_mul (l : List ℚ) (k : ℚ) :
    ∀ x : ℚ, (l.map (fun y => y * k)).getLastD (x * k) = l.getLastD x * k := by
  induction l with
  | nil => intro x; rfl
  | cons y ys ih =>
    intro x
    simp only [List.map_cons, List.getLastD_cons]
    exact ih y

theorem sampleIdx_scale (w : List ℚ) (u k : ℚ) (hk : 0 < k) :
    sampleIdx (w.map (fun x => x * k)) u = sampleIdx w u := by
  simp only [sampleIdx]
  rw [cumsum_map_mul]
  have hlast : ((cumsum w).map (fun y => y * k)).getLastD 0
      = (cumsum w).getLastD 0 * k := by
    have h := getLastD_map_mul (cumsum w) k 0
    rw [zero_mul] at h
    exact h
  rw [hlast, searchsorted_left, searchsorted_left, List.countP_map]
  apply List.countP_congr
  intro x _
  simp only [Function.comp, decide_eq_true_eq]
  rw [← mul_assoc]
  exact mul_lt_mul_right hk

/- ------------------------------------------------------------------ -/
/- Claim theorems.                                                     -/
/- ------------------------------------------------------------------ -/

/-- C6: for every sample array, `Empirical.cdf(z)` returns
`(number of stored samples <= z) / n` (ties counting as `<= z`), and on the
spec's two concrete examples it returns `[1/3, 1/3, 2/3, 1, 1]` for samples
`[5, 10, 15]` queried at `[5, 9, 13, 15, 100]`, and `[0, 2/3, 1]` for
samples `[5, 5, 15]` queried at `[0, 5, 15]`. -/
theorem ecdf_tie_handling :
    (∀ (samples : List ℚ) (z : ℚ),
      ecdf samples z =
        (samples.countP (fun v => decide (v ≤ z)) : ℚ) / (samples.length : ℚ)) ∧
    ([(5:ℚ), 9, 13, 15, 100].map (ecdf [5, 10, 15]) = [1/3, 1/3, 2/3, 1, 1]) ∧
    ([(0:ℚ), 5, 15].map (ecdf [5, 5, 15]) = [0, 2/3, 1]) := by
  refine ⟨?_, ?_, ?_⟩
  · intro samples z
    rw [ecdf, searchsorted_right, sortedx_countP]
  · norm_num [ecdf, searchsorted_right, sortedx, List.insertionSort,
      List.orderedInsert, List.countP_cons, List.countP_nil]
  · norm_num [ecdf, searchsorted_right, sortedx, List.insertionSort,
      List.orderedInsert, List.countP_cons, List.countP_nil]

/-- C10: for every non-empty sample array and every query `z`,
`Empirical.cdf(z)` lies in `[0, 1]`: the right-side search index lies in
`[0, n]` and is divided by `n ≥ 1`. -/
theorem ecdf_unit_interval (samples : List ℚ) (z : ℚ) (hne : samples ≠ []) :
    0 ≤ ecdf samples z ∧ ecdf samples z ≤ 1 := by
  have hn : 0 < samples.length := List.length_pos.mpr hne
  constructor
  · exact div_nonneg (Nat.cast_nonneg _) (Nat.cast_nonneg _)
  · rw [ecdf, div_le_one (by exact_mod_cast hn)]
    have hle : searchsorted_right (sortedx samples) z ≤ samples.length := by
      rw [← sortedx_length samples]
      exact List.countP_le_length _
    exact_mod_cast hle

/-- C10 witness: the bound evaluated at samples `[5]` and query `0`. -/
theorem ecdf_unit_interval_witness :
    0 ≤ ecdf [5] 0 ∧ ecdf [5] 0 ≤ 1 :=
  ecdf_unit_interval [5] 0 (by simp)

/-- C9: constructing `Empirical(x)` leaves the caller's array unchanged:
in the heap model, the buffer at the caller's address holds the same list
before and after construction (the constructor copies, then sorts only the
fresh copy in place). -/
theorem empirical_init_frame (heap : List (List ℚ)) (caller : ℕ)
    (h : caller < heap.length) :
    ((empInit heap caller).1).getD caller [] = heap.getD caller [] := by
  simp only [empInit]
  rw [List.getD_eq_getElem?_getD,
    List.getElem?_set_ne (Ne.symm (Nat.ne_of_lt h)),
    List.getElem?_append, if_pos h, ← List.getD_eq_getElem?_getD]

/-- C9 witness: constructing from the (unsorted) caller buffer `[3, 1]`
leaves that buffer equal to `[3, 1]`. -/
theorem empirical_init_frame_witness :
    ((empInit [[3, 1]] 0).1).getD 0 [] = ([[(3:ℚ), 1]].getD 0 []) :=
  empirical_init_frame [[3, 1]] 0 (by simp)

/-- C5: for a constructed `TruncatedDistribution` with `cdf_w > 0`,
`cdf(x) = min(1, (D.cdf(x) - cdf_a) / cdf_w)` for `x ≥ a`, `cdf(x) = 0` for
`x < a`, and in particular `cdf(a) = 0` and `cdf(b) = 1`. -/
theorem truncated_cdf_cases (t : TruncatedDistribution) (hab : t.a ≤ t.b)
    (hw : 0 < t.cdf_w) :
    (∀ x, t.a ≤ x → t.cdf x = min 1 ((t.d.cdf x - t.cdf_a) / t.cdf_w)) ∧
    (∀ x, x < t.a → t.cdf x = 0) ∧
    t.cdf t.a = 0 ∧ t.cdf t.b = 1 := by
  refine ⟨?_, ?_, ?_, ?_⟩
  · intro x hx
    rw [TruncatedDistribution.cdf, indQ, if_pos hx, one_mul]
  · intro x hx
    rw [TruncatedDistribution.cdf, indQ, if_neg (not_le.mpr hx), zero_mul,
      zero_div]
    exact min_eq_right zero_le_one
  · rw [TruncatedDistribution.cdf, TruncatedDistribution.cdf_a, indQ,
      if_pos le_rfl, sub_self, mul_zero, zero_div]
    exact min_eq_right zero_le_one
  · rw [TruncatedDistribution.cdf, indQ, if_pos hab, one_mul]
    have hcw : t.d.cdf t.b - t.cdf_a = t.cdf_w := rfl
    rw [hcw, div_self (ne_of_gt hw), min_self]

/-- C5 witness: for the uniform law truncated to `[0, 1]`,
`cdf(a) = 0` and `cdf(b) = 1`. -/
theorem truncated_cdf_cases_witness :
    unifT.cdf unifT.a = 0 ∧ unifT.cdf unifT.b = 1 := by
  have h := truncated_cdf_cases unifT (show (0:ℚ) ≤ 1 from zero_le_one)
    (show (0:ℚ) < 1 - 0 by norm_num)
  exact ⟨h.2.2.1, h.2.2.2⟩

/-- C3: the claim says `size` alone is a valid call and `size` together
with `u` is the precondition failure.  The code does the opposite: its
`assert size is None` sits inside the `if u is None` branch, so supplying
`size` alone raises, supplying both `size` and `u` is silently accepted,
and the only drawing call accepted is `size=None, u=None`, which draws a
single scalar uniform.  Evaluated at the failing input
`sample([1,1,2], size=1)` (exactly the call `Mixture.rvs` makes). -/
theorem sample_size_assertion_flipped :
    sampleCall [1, 1, 2] (some 1) none (1/2)
      = Except.error "assert size is None" ∧
    sampleCall [1, 1, 2] (some 1) (some (1/2)) 0 = Except.ok 1 ∧
    sampleCall [1, 1, 2] none none (1/2)
      = Except.ok (sampleIdx [1, 1, 2] (1/2)) := by
  refine ⟨rfl, ?_, rfl⟩
  have h : sampleCall [1, 1, 2] (some 1) (some (1/2)) 0
      = Except.ok (sampleIdx [1, 1, 2] (1/2)) := rfl
  rw [h]
  norm_num [sampleIdx, cumsum, cumsumFrom, searchsorted_left,
    List.countP_cons, List.countP_nil]

/-- C4: the claim (and the method's own docstring `E[T | a <= T < b]`) says
`conditional_mean(a, b)` averages the stored values with `a <= v < b`.
The code's `searchsorted(a, 'right')` lower bound excludes values equal to
`a`: on samples `[5, 10, 15]` with `a = 5`, `b = 12` the code averages only
`{10}` and returns `10`, while the stored values in `[5, 12)` are `[5, 10]`
with mean `7.5`. -/
theorem conditional_mean_excludes_left_endpoint :
    conditional_mean [5, 10, 15] 5 12 = some 10 ∧
    ([5, 10, 15] : List ℚ).filter (fun v => decide (5 ≤ v ∧ v < 12))
      = [5, 10] ∧
    (((5:ℚ) + 10) / 2 ≠ 10) := by
  refine ⟨?_, ?_, by norm_num⟩
  · norm_num [conditional_mean, sortedx, List.insertionSort,
      List.orderedInsert, searchsorted_right, searchsorted_left,
      List.countP_cons, List.countP_nil]
  · norm_num [List.filter]

/-- C2 counterexample: on samples `[-1, 5, 5, 15]` with `q = 7/9`,
`Empirical.quantile` returns `5`, yet `cdf(5) = 3/4 < 7/9`, so the returned
value is not the smallest stored value whose cdf is at least `q` (that
value is `15`). -/
theorem quantile_not_generalized_inverse :
    quantile [-1, 5, 5, 15] (7/9) = 5 ∧
    ecdf [-1, 5, 5, 15] 5 < 7/9 ∧
    (7/9 : ℚ) ≤ ecdf [-1, 5, 5, 15] 15 := by
  refine ⟨?_, ?_, ?_⟩
  · have h : ((7:ℚ)/9 * ((([-1, 5, 5, 15] : List ℚ).length : ℚ) - 1))
        = 7/3 := by norm_num
    have h2 : (⌊(7:ℚ)/3⌋₊ : ℕ) = 2 := by
      rw [Nat.floor_eq_iff (by norm_num)]
      norm_num
    rw [quantile, h, h2]
    norm_num [sortedx, List.insertionSort, List.orderedInsert]
  · norm_num [ecdf, searchsorted_right, sortedx, List.insertionSort,
      List.orderedInsert, List.countP_cons, List.countP_nil]
  · norm_num [ecdf, searchsorted_right, sortedx, List.insertionSort,
      List.orderedInsert, List.countP_cons, List.countP_nil]

/-- C2 (amended): for every non-empty sample array and `0 ≤ q ≤ 1`,
`Empirical.quantile(q)` returns the sorted sample at index
`floor(q * (n - 1))` (numpy's "lower" interpolation); the returned value is
always a stored sample, and in particular `quantile(0)` is the minimum
stored sample and `quantile(1)` the maximum stored sample. -/
theorem quantile_lower_order_statistic (samples : List ℚ) (q : ℚ)
    (hne : samples ≠ []) (_h0 : 0 ≤ q) (h1 : q ≤ 1) :
    quantile samples q
      = (sortedx samples).getD (Nat.floor (q * ((samples.length : ℚ) - 1))) 0 ∧
    quantile samples q ∈ samples ∧
    (∀ v ∈ samples, quantile samples 0 ≤ v) ∧
    (∀ v ∈ samples, v ≤ quantile samples 1) := by
  have hn : 0 < samples.length := List.length_pos.mpr hne
  have hn1 : 1 ≤ samples.length := hn
  have hcast : ((samples.length : ℚ) - 1) = ((samples.length - 1 : ℕ) : ℚ) := by
    rw [Nat.cast_sub hn1, Nat.cast_one]
  have hidx : Nat.floor (q * ((samples.length : ℚ) - 1))
      < (sortedx samples).length := by
    have hnonneg : (0:ℚ) ≤ (samples.length : ℚ) - 1 := by
      rw [hcast]
      exact Nat.cast_nonneg _
    have hle : q * ((samples.length : ℚ) - 1) ≤ ((samples.length - 1 : ℕ) : ℚ) := by
      rw [← hcast]
      calc q * ((samples.length : ℚ) - 1)
          ≤ 1 * ((samples.length : ℚ) - 1) :=
            mul_le_mul_of_nonneg_right h1 hnonneg
        _ = (samples.length : ℚ) - 1 := one_mul _
    have hfl : Nat.floor (q * ((samples.length : ℚ) - 1)) ≤ samples.length - 1 := by
      calc Nat.floor (q * ((samples.length : ℚ) - 1))
          ≤ Nat.floor ((samples.length - 1 : ℕ) : ℚ) := Nat.floor_le_floor hle
        _ = samples.length - 1 := Nat.floor_natCast _
    rw [sortedx_length]
    exact lt_of_le_of_lt hfl (Nat.sub_lt hn one_pos)
  refine ⟨rfl, ?_, ?_, ?_⟩
  · rw [quantile]
    exact (List.mem_insertionSort _).1 (getD_mem_of_lt hidx 0)
  · intro v hv
    have hq0 : quantile samples 0 = (sortedx samples).getD 0 0 := by
      rw [quantile, zero_mul, Nat.floor_zero]
    rw [hq0]
    exact sorted_getD_zero_le (sortedx_sorted samples)
      ((List.mem_insertionSort _).2 hv)
  · intro v hv
    have hq1 : quantile samples 1
        = (sortedx samples).getD ((sortedx samples).length - 1) 0 := by
      rw [quantile, one_mul, hcast, Nat.floor_natCast, sortedx_length]
    rw [hq1]
    exact sorted_le_getD_last (sortedx_sorted samples)
      ((List.mem_insertionSort _).2 hv)

/-- C2 (amended) witness: on samples `[-1, 5, 5, 15]` at `q = 0`, the
returned value is a stored sample, `quantile(0)` is a lower bound of the
samples and `quantile(1)` an upper bound. -/
theorem quantile_lower_order_statistic_witness :
    quantile [-1, 5, 5, 15] 0 ∈ ([-1, 5, 5, 15] : List ℚ) ∧
    quantile [-1, 5, 5, 15] 0 ≤ -1 ∧
    (15:ℚ) ≤ quantile [-1, 5, 5, 15] 1 := by
  have h := quantile_lower_order_statistic [-1, 5, 5, 15] 0 (by simp)
    le_rfl zero_le_one
  exact ⟨h.2.1, h.2.2.1 (-1) (by simp), h.2.2.2 15 (by simp)⟩

/-- C7: for every nonnegative weight vector with positive total mass and
every uniform draw `u` in `(0,1)`, `sample` returns the smallest index `i`
with `c[i] >= u * c[-1]`, where `c = cumsum(w)` (so `c[-1] = sum(w)`): the
returned index is in range, the cumulative sum at it reaches `u * sum(w)`,
and every earlier cumulative sum falls short. -/
theorem sample_inverse_cdf (w : List ℚ) (u : ℚ) (hne : w ≠ [])
    (hnn : ∀ x ∈ w, 0 ≤ x) (hpos : 0 < w.sum) (_hu0 : 0 < u) (hu1 : u < 1) :
    sampleIdx w u < (cumsum w).length ∧
    u * w.sum ≤ (cumsum w).getD (sampleIdx w u) 0 ∧
    (∀ j < sampleIdx w u, (cumsum w).getD j 0 < u * w.sum) := by
  have hsorted : (cumsum w).Sorted (· ≤ ·) := (cumsumFrom_sorted 0 w hnn).1
  have hlast : (cumsum w).getLastD 0 = w.sum := cumsum_getLastD w
  have hcne : cumsum w ≠ [] := by
    intro h
    apply hne
    have hlen := cumsum_length w
    rw [h] at hlen
    exact List.length_eq_zero.1 hlen.symm
  have hidx : sampleIdx w u = searchsorted_left (cumsum w) (u * w.sum) := by
    simp only [sampleIdx]
    rw [hlast]
  have hspec := searchsorted_left_spec (cumsum w) (u * w.sum) hsorted
  have hlt : sampleIdx w u < (cumsum w).length := by
    rw [hidx]
    by_contra hge
    push_neg at hge
    have heq : searchsorted_left (cumsum w) (u * w.sum) = (cumsum w).length :=
      le_antisymm (List.countP_le_length _) hge
    have hall := List.countP_eq_length.1 heq
    have hmem : w.sum ∈ cumsum w := by
      rw [← hlast]
      exact getLastD_mem hcne 0
    have hcontr := hall _ hmem
    simp only [decide_eq_true_eq] at hcontr
    nlinarith
  refine ⟨hlt, ?_, ?_⟩
  · rw [hidx]
    exact hspec.2 (hidx ▸ hlt)
  · intro j hj
    exact hspec.1 j (hidx ▸ hj)

/-- C7 witness: the characterization evaluated at weights `[1, 1, 2]` and
draw `u = 1/2` (the returned index is `1`, with `c = [1, 2, 4]` and target
`u * c[-1] = 2`). -/
theorem sample_inverse_cdf_witness :
    sampleIdx [1, 1, 2] (1/2) < (cumsum [1, 1, 2]).length ∧
    (1/2 : ℚ) * ([1, 1, 2] : List ℚ).sum
      ≤ (cumsum [1, 1, 2]).getD (sampleIdx [1, 1, 2] (1/2)) 0 ∧
    (∀ j < sampleIdx [1, 1, 2] (1/2),
      (cumsum [1, 1, 2]).getD j 0 < (1/2 : ℚ) * ([1, 1, 2] : List ℚ).sum) :=
  sample_inverse_cdf [1, 1, 2] (1/2) (by simp)
    (by norm_num [List.forall_mem_cons])
    (by norm_num [List.sum_cons, List.sum_nil]) (by norm_num) (by norm_num)

/-- C8: `log_sample` subtracts the maximum log-weight before exponentiating
and delegates to `sample`; since this rescales every linear weight by the
same positive constant `1 / E(max lw)`, for any fixed uniform draw the
selected index equals the one `sample` selects on the unshifted weights
`E(lw)`.  Hence the two induce the same index distribution.  `np.exp` is
the abstract map `E`, assumed strictly positive and additive-to-
multiplicative — the laws of the real exponential the stabilisation
relies on. -/
theorem log_sample_delegates (E : ℚ → ℚ) (hEpos : ∀ x, 0 < E x)
    (hEhom : ∀ x y, E (x + y) = E x * E y) (lw : List ℚ) (u : ℚ) :
    logSample E lw u = sampleIdx (lw.map E) u := by
  have hEM : E (listMax lw) ≠ 0 := ne_of_gt (hEpos (listMax lw))
  have hmap : (lw.map (fun x => x - listMax lw)).map E
      = (lw.map E).map (fun y => y * (E (listMax lw))⁻¹) := by
    rw [List.map_map, List.map_map]
    apply List.map_congr_left
    intro x _
    simp only [Function.comp]
    have h1 : E (x - listMax lw) * E (listMax lw) = E x := by
      rw [← hEhom, sub_add_cancel]
    rw [← h1, mul_inv_cancel_right₀ hEM]
  rw [logSample, hmap, sampleIdx_scale _ _ _ (inv_pos.2 (hEpos (listMax lw)))]

/-- C8 witness: the delegation law evaluated at the exponential-law map
`E = const 1`, log-weights `[0, 0]` and draw `u = 1/2`. -/
theorem log_sample_delegates_witness :
    logSample (fun _ => (1:ℚ)) [0, 0] (1/2)
      = sampleIdx (([(0:ℚ), 0]).map (fun _ => (1:ℚ))) (1/2) :=
  log_sample_delegates (fun _ => 1) (fun _ => zero_lt_one)
    (fun _ _ => (one_mul 1).symm) [0, 0] (1/2)

/-- C1: round-trip law for `TruncatedDistribution` with `cdf_w > 0`.
Assuming the base distribution's `ppf` is the exact generalized inverse of
its `cdf` (hypotheses: `cdf ∘ ppf` is the identity on `[cdf_a, cdf_b]`,
`ppf` maps that interval above `a`, `cdf` maps `[a,b]` into
`[cdf_a, cdf_b]`, and `ppf ∘ cdf` fixes points of positive density): for
every `u` in `[0,1]`, `cdf(ppf(u)) = u` exactly — hence within relative
error `1e-3` for `u ≠ 0` — and for every `x` in `[a,b]` with
`pdf(x) > 0`, `ppf(cdf(x)) = x` exactly, hence within relative error
`1e-3`. -/
theorem truncated_round_trip (t : TruncatedDistribution) (hw : 0 < t.cdf_w)
    (hppf_inv : ∀ v, t.cdf_a ≤ v → v ≤ t.cdf_b → t.d.cdf (t.d.ppf v) = v)
    (hppf_ge : ∀ v, t.cdf_a ≤ v → v ≤ t.cdf_b → t.a ≤ t.d.ppf v)
    (hcdf_bounds : ∀ x, t.a ≤ x → x ≤ t.b →
      t.cdf_a ≤ t.d.cdf x ∧ t.d.cdf x ≤ t.cdf_b)
    (hcdf_inv : ∀ x, t.a ≤ x → x ≤ t.b → 0 < t.pdf x →
      t.d.ppf (t.d.cdf x) = x) :
    (∀ u, 0 ≤ u → u ≤ 1 → t.cdf (t.ppf u) = u) ∧
    (∀ u, 0 < u → u ≤ 1 → |t.cdf (t.ppf u) - u| < u * (1/1000)) ∧
    (∀ x, t.a ≤ x → x ≤ t.b → 0 < t.pdf x →
      t.ppf (t.cdf x) = x ∧ |t.ppf (t.cdf x) - x| ≤ |x| * (1/1000)) := by
  have hwne : t.cdf_w ≠ 0 := ne_of_gt hw
  have hwdef : t.cdf_w = t.cdf_b - t.cdf_a := rfl
  have key1 : ∀ u, 0 ≤ u → u ≤ 1 → t.cdf (t.ppf u) = u := by
    intro u hu0 hu1
    have hv0 : t.cdf_a ≤ t.cdf_a + u * t.cdf_w := by nlinarith
    have hv1 : t.cdf_a + u * t.cdf_w ≤ t.cdf_b := by nlinarith
    rw [TruncatedDistribution.ppf, TruncatedDistribution.cdf, indQ,
      if_pos (hppf_ge _ hv0 hv1), one_mul, hppf_inv _ hv0 hv1,
      add_sub_cancel_left, mul_div_assoc, div_self hwne, mul_one,
      min_eq_right hu1]
  have key2 : ∀ x, t.a ≤ x → x ≤ t.b → 0 < t.pdf x →
      t.ppf (t.cdf x) = x := by
    intro x hax hxb hpdf
    rcases hcdf_bounds x hax hxb with ⟨hb1, hb2⟩
    have hcdf_eq : t.cdf x = (t.d.cdf x - t.cdf_a) / t.cdf_w := by
      rw [TruncatedDistribution.cdf, indQ, if_pos hax, one_mul]
      apply min_eq_right
      rw [div_le_one hw]
      linarith
    have harg : t.cdf_a + (t.d.cdf x - t.cdf_a) = t.d.cdf x := by ring
    rw [TruncatedDistribution.ppf, hcdf_eq, div_mul_cancel₀ _ hwne, harg]
    exact hcdf_inv x hax hxb hpdf
  refine ⟨key1, ?_, ?_⟩
  · intro u hu0 hu1
    rw [key1 u (le_of_lt hu0) hu1, sub_self, abs_zero]
    nlinarith
  · intro x hax hxb hpdf
    refine ⟨key2 x hax hxb hpdf, ?_⟩
    rw [key2 x hax hxb hpdf, sub_self, abs_zero]
    exact mul_nonneg (abs_nonneg x) (by norm_num)

/-- C1 witness: for the uniform law truncated to `[0, 1]` (whose `ppf` is
an exact inverse of its `cdf`), the round trip at `u = 1/2` and at
`x = 3/4` is exact. -/
theorem truncated_round_trip_witness :
    unifT.cdf (unifT.ppf (1/2)) = 1/2 ∧
    unifT.ppf (unifT.cdf (3/4)) = 3/4 := by
  have h := truncated_round_trip unifT (show (0:ℚ) < 1 - 0 by norm_num)
    (fun v _ _ => rfl) (fun v hv _ => hv) (fun x hax hxb => ⟨hax, hxb⟩)
    (fun x _ _ _ => rfl)
  refine ⟨h.1 (1/2) (by norm_num) (by norm_num), ?_⟩
  have hpdf : 0 < unifT.pdf (3/4) := by
    norm_num [TruncatedDistribution.pdf, TruncatedDistribution.cdf_w,
      TruncatedDistribution.cdf_b, TruncatedDistribution.cdf_a, indQ,
      unifT, unifD]
  exact (h.2.2 (3/4) (by norm_num [unifT]) (by norm_num [unifT]) hpdf).1

end Arsenal
